import Mathlib

/-!
Verification of the 24-game trainer solver (`src/lib/solve_24.cpp`).

The C++ `Solution` class carries three private search routines that share one
traversal skeleton over a `vector<double>`:

  * `solution_exists`  — boolean search (short-circuits on the first success);
  * `solve_first`      — same traversal, threading an accumulated trace of
                         string tokens; on success it stores the trace in the
                         `first_solution` member and returns `true`;
  * `solve_all`        — same traversal without short-circuiting; every
                         base-case success appends its trace to the
                         `solutions` member.

Shallow-embedding conventions used below:

  * `double` values are modelled by `F`: finite values are exact rationals
    and the IEEE-754 non-finite outcomes (`±inf`, `NaN`) are explicit
    constructors.  Finite arithmetic is modelled exactly (no rounding); the
    special-value propagation rules of IEEE-754 division/multiplication/
    addition are reproduced, which is what matters for the division-by-zero
    behaviour of the solver.  The sign of a floating zero is collapsed to the
    single rational `0`: the only effect a negative zero can have here is to
    flip the sign of an infinity produced by a later division, and the two
    infinities are treated identically by every observation this development
    makes (both fail the `fabs(x - target) < 1e-8` check, and a finite value
    divided by either infinity is zero).
  * the C++ trace is a `vector<string>` built from `to_string(double)` and
    the four operator symbols.  Tokens are modelled by their content: a
    numeric token carries the `F` value it prints, an operator token carries
    the symbol.  (C++ `to_string` renders with six decimals; the rendering is
    irrelevant to the claims, which concern token counts and the operations
    recorded.)
  * the recursive traversals recurse on a vector one element shorter than the
    caller's.  They are embedded with a `Nat` fuel argument that the entry
    points set to the length of the input list; each recursive call decreases
    the fuel and the list length together, so the fuel is never exhausted.
  * member-mutating methods of the class (`find_first_solution`,
    `find_all_solutions`) are embedded as functions from the record
    `Solution` to an updated record.
-/

namespace Solve24

/- Batteries marks the rational operations `@[irreducible]`; restore the
default transparency inside this development so that concrete runs of the
solver reduce under `decide`. -/
attribute [local semireducible] Rat.add Rat.sub Rat.mul Rat.inv

/-- Model of a C++ `double`: an exact rational, or one of the IEEE-754
non-finite values. -/
inductive F where
  | fin (q : ℚ)
  | inf
  | neginf
  | nan
deriving DecidableEq, Repr

/-- IEEE-754 addition on the model (finite part exact). -/
def Fadd : F → F → F
  | .fin a, .fin b => .fin (a + b)
  | .fin _, .inf => .inf
  | .fin _, .neginf => .neginf
  | .inf, .fin _ => .inf
  | .neginf, .fin _ => .neginf
  | .inf, .inf => .inf
  | .neginf, .neginf => .neginf
  | .inf, .neginf => .nan
  | .neginf, .inf => .nan
  | .nan, _ => .nan
  | _, .nan => .nan

/-- IEEE-754 subtraction on the model (finite part exact). -/
def Fsub : F → F → F
  | .fin a, .fin b => .fin (a - b)
  | .fin _, .inf => .neginf
  | .fin _, .neginf => .inf
  | .inf, .fin _ => .inf
  | .neginf, .fin _ => .neginf
  | .inf, .inf => .nan
  | .neginf, .neginf => .nan
  | .inf, .neginf => .inf
  | .neginf, .inf => .neginf
  | .nan, _ => .nan
  | _, .nan => .nan

/-- IEEE-754 multiplication on the model (finite part exact;
`0 * ±inf = NaN`). -/
def Fmul : F → F → F
  | .fin a, .fin b => .fin (a * b)
  | .fin a, .inf => if a = 0 then .nan else if 0 < a then .inf else .neginf
  | .fin a, .neginf => if a = 0 then .nan else if 0 < a then .neginf else .inf
  | .inf, .fin b => if b = 0 then .nan else if 0 < b then .inf else .neginf
  | .neginf, .fin b => if b = 0 then .nan else if 0 < b then .neginf else .inf
  | .inf, .inf => .inf
  | .neginf, .neginf => .inf
  | .inf, .neginf => .neginf
  | .neginf, .inf => .neginf
  | .nan, _ => .nan
  | _, .nan => .nan

/-- IEEE-754 division on the model: `x/0` is `±inf` for `x ≠ 0` and `NaN`
for `0/0`; a finite value divided by an infinity is `0`; `inf/inf = NaN`.
The divisor `0` is treated as the positive zero (see the header comment). -/
def Fdiv : F → F → F
  | .fin a, .fin b =>
      if b = 0 then (if a = 0 then .nan else if 0 < a then .inf else .neginf)
      else .fin (a / b)
  | .fin _, .inf => .fin 0
  | .fin _, .neginf => .fin 0
  | .inf, .fin b => if 0 ≤ b then .inf else .neginf
  | .neginf, .fin b => if 0 ≤ b then .neginf else .inf
  | .inf, .inf => .nan
  | .inf, .neginf => .nan
  | .neginf, .inf => .nan
  | .neginf, .neginf => .nan
  | .nan, _ => .nan
  | _, .nan => .nan

/-- The fixed tolerance `1e-8` of the C++ code. -/
def eps : ℚ := 1 / 100000000

/-- `fabs` on the finite part of the model. -/
def qabs (x : ℚ) : ℚ :=
  if x < 0 then -x else x

/-- The base-case success test `fabs(nums[0] - target) < 1e-8`.  A non-finite
value never passes (in IEEE-754, comparisons against `NaN` are false and
`fabs(±inf - t)` is infinite for finite `t`). -/
def isClose (v : F) (t : ℚ) : Bool :=
  match v with
  | .fin q => decide (qabs (q - t) < eps)
  | _ => false

/-- The four operator symbols pushed into the C++ trace
(`"+"`, `"*"`, `"-"`, `"/"`). -/
inductive OpSym where
  | plus
  | times
  | minus
  | divi
deriving DecidableEq, Repr

/-- The six directional operations tried for a pair `(nums[i], nums[j])`,
in the order the C++ loop body tries them. -/
inductive Op6 where
  | add
  | mul
  | subF
  | divF
  | subR
  | divR
deriving DecidableEq, Repr

/-- The operation order of the C++ loop body: addition, multiplication,
`nums[i] - nums[j]`, `nums[i] / nums[j]`, `nums[j] - nums[i]`,
`nums[j] / nums[i]`. -/
def ops6 : List Op6 := [.add, .mul, .subF, .divF, .subR, .divR]

/-- The value a branch computes from the pair `(a, b) = (nums[i], nums[j])`. -/
def apply6 : Op6 → F → F → F
  | .add, a, b => Fadd a b
  | .mul, a, b => Fmul a b
  | .subF, a, b => Fsub a b
  | .divF, a, b => Fdiv a b
  | .subR, a, b => Fsub b a
  | .divR, a, b => Fdiv b a

/-- A token of the C++ trace (`vector<string>`): either a rendered number or
an operator symbol. -/
inductive Tok where
  | ofF (v : F)
  | ofOp (s : OpSym)
deriving DecidableEq, Repr

/-- The four tokens one branch appends to the trace: for the forward
operations the C++ code pushes `val1, val2, result, symbol`; for the two
reverse operations it pushes `val2, val1, result, symbol`
(`a = nums[i]`, `b = nums[j]`). -/
def stepToks (a b : F) : Op6 → List Tok
  | .add => [.ofF a, .ofF b, .ofF (Fadd a b), .ofOp .plus]
  | .mul => [.ofF a, .ofF b, .ofF (Fmul a b), .ofOp .times]
  | .subF => [.ofF a, .ofF b, .ofF (Fsub a b), .ofOp .minus]
  | .divF => [.ofF a, .ofF b, .ofF (Fdiv a b), .ofOp .divi]
  | .subR => [.ofF b, .ofF a, .ofF (Fsub b a), .ofOp .minus]
  | .divR => [.ofF b, .ofF a, .ofF (Fdiv b a), .ofOp .divi]

/-- The position pairs visited by the nested loops
`for(i = 0; i + 1 < n; ++i) for(j = i + 1; j < n; ++j)`:
`i` ascending outer, `j` ascending inner, `i < j`.  (Letting `i` run to
`n - 1` adds only an empty inner range, so the list is identical.) -/
def pairs (n : Nat) : List (Nat × Nat) :=
  (List.range n).flatMap fun i =>
    ((List.range n).filter fun j => i < j).map fun j => (i, j)

/-- The vector passed to the recursive call: all entries except positions
`i` and `j` in their original order (`new_nums`), with the branch's computed
value appended.  Out-of-range reads default to `NaN`; the loops only produce
in-range `i < j < nums.length`. -/
def newNums (nums : List F) (i j : Nat) (o : Op6) : List F :=
  (nums.eraseIdx j).eraseIdx i ++ [apply6 o (nums.getD i .nan) (nums.getD j .nan)]

/-- `Solution::solution_exists`, with fuel.  Base case: a single remaining
value succeeds iff it is within `eps` of the target.  Otherwise every pair
and operation is tried in order, short-circuiting on the first success
(`List.any` short-circuits).  An empty vector falls through the loop and
returns `false`. -/
def goExists (t : ℚ) : Nat → List F → Bool
  | 0, _ => false
  | _ + 1, [x] => isClose x t
  | fuel + 1, nums =>
      (pairs nums.length).any fun p =>
        ops6.any fun o => goExists t fuel (newNums nums p.1 p.2 o)

/-- `Solution::solve_first`, with fuel: the same traversal threading the
accumulated trace `prev_ops`; the first base-case success returns the
accumulated trace (the value the C++ code assigns to `first_solution`). -/
def goFirst (t : ℚ) : Nat → List F → List Tok → Option (List Tok)
  | 0, _, _ => none
  | _ + 1, [x], acc => if isClose x t then some acc else none
  | fuel + 1, nums, acc =>
      (pairs nums.length).findSome? fun p =>
        ops6.findSome? fun o =>
          goFirst t fuel (newNums nums p.1 p.2 o)
            (acc ++ stepToks (nums.getD p.1 .nan) (nums.getD p.2 .nan) o)

/-- `Solution::solve_all`, with fuel: the same traversal without
short-circuiting; every base-case success contributes its trace, in
discovery order. -/
def goAll (t : ℚ) : Nat → List F → List Tok → List (List Tok)
  | 0, _, _ => []
  | _ + 1, [x], acc => if isClose x t then [acc] else []
  | fuel + 1, nums, acc =>
      (pairs nums.length).flatMap fun p =>
        ops6.flatMap fun o =>
          goAll t fuel (newNums nums p.1 p.2 o)
            (acc ++ stepToks (nums.getD p.1 .nan) (nums.getD p.2 .nan) o)

/-- Entry point for the existence search (fuel = vector length; the
recursion shortens the vector by one per level, so this fuel is never
exhausted — see `goExists_fuel_invariant`). -/
def solution_exists (nums : List F) (target : ℚ) : Bool :=
  goExists target nums.length nums

/-- Entry point for the first-solution search. -/
def solve_first (nums : List F) (prev_ops : List Tok) (target : ℚ) :
    Option (List Tok) :=
  goFirst target nums.length nums prev_ops

/-- Entry point for the all-solutions search. -/
def solve_all (nums : List F) (prev_ops : List Tok) (target : ℚ) :
    List (List Tok) :=
  goAll target nums.length nums prev_ops

/-- The state of a C++ `Solution` object: the two result members, the
`max_generated` knob (stored but never read by any search routine), and the
constructor arguments. -/
structure Solution where
  solutions : List (List Tok)
  first_solution : List Tok
  max_generated : Int
  numbers : List Int
  target : ℚ
deriving DecidableEq, Repr

/-- One-argument constructor: `target` defaults to `24`, `max_generated` to
`1024`; the result members start empty (default-constructed vectors). -/
def mkSolution (arg1 : List Int) : Solution :=
  ⟨[], [], 1024, arg1, 24⟩

/-- Two-argument constructor. -/
def mkSolutionT (arg1 : List Int) (arg2 : ℚ) : Solution :=
  ⟨[], [], 1024, arg1, arg2⟩

/-- Three-argument constructor. -/
def mkSolutionTM (arg1 : List Int) (arg2 : ℚ) (arg3 : Int) : Solution :=
  ⟨[], [], arg3, arg1, arg2⟩

/-- The `vector<double> values(numbers.begin(), numbers.end())` conversion
performed by each public method. -/
def valuesOf (s : Solution) : List F :=
  s.numbers.map fun n => F.fin (n : ℚ)

/-- `Solution::get_all_solutions`. -/
def get_all_solutions (s : Solution) : List (List Tok) :=
  s.solutions

/-- `Solution::get_first_solution`. -/
def get_first_solution (s : Solution) : List Tok :=
  s.first_solution

/-- `Solution::is_valid_input`: runs the existence search on the stored
numbers and target. -/
def is_valid_input (s : Solution) : Bool :=
  solution_exists (valuesOf s) s.target

/-- `Solution::find_first_solution`: runs `solve_first` with an empty trace;
on success the found trace is assigned to the `first_solution` member, on
failure the state is untouched. -/
def find_first_solution (s : Solution) : Bool × Solution :=
  match solve_first (valuesOf s) [] s.target with
  | some tr => (true, { s with first_solution := tr })
  | none => (false, s)

/-- `Solution::find_all_solutions`: the statement `solutions;` in the C++
body is a no-op expression (it does not clear the member), so the traces
found by `solve_all` are appended after whatever the member already holds. -/
def find_all_solutions (s : Solution) : Solution :=
  { s with solutions := s.solutions ++ solve_all (valuesOf s) [] s.target }

/-- The arithmetic operation denoted by a trace operator symbol, applied to
the two operand tokens in the order they appear in the trace. -/
def applySym : OpSym → F → F → F
  | .plus, a, b => Fadd a b
  | .times, a, b => Fmul a b
  | .minus, a, b => Fsub a b
  | .divi, a, b => Fdiv a b

/-- Replay of a trace against a multiset of values (the order of the
remaining values carries no meaning, so replay acts on the multiset): each
group of four tokens `a, b, r, op` removes one occurrence of `a` and one of
`b`, checks that the recorded result `r` is the one the operator computes,
and puts the result back.  Ill-formed traces replay to `none`. -/
def replayToks : Multiset F → List Tok → Option (Multiset F)
  | s, [] => some s
  | s, .ofF a :: .ofF b :: .ofF r :: .ofOp o :: rest =>
      if a ∈ s ∧ b ∈ s.erase a ∧ r = applySym o a b then
        replayToks (applySym o a b ::ₘ (s.erase a).erase b) rest
      else none
  | _, _ => none

/-! ### Small list and unfolding lemmas -/

theorem goExists_succ_nil (t : ℚ) (fuel : Nat) : goExists t (fuel + 1) [] = false := rfl

theorem goExists_succ_one (t : ℚ) (fuel : Nat) (x : F) :
    goExists t (fuel + 1) [x] = isClose x t := rfl

theorem goExists_succ_cons (t : ℚ) (fuel : Nat) (x y : F) (l : List F) :
    goExists t (fuel + 1) (x :: y :: l)
      = (pairs (x :: y :: l).length).any fun p =>
          ops6.any fun o => goExists t fuel (newNums (x :: y :: l) p.1 p.2 o) := rfl

theorem goFirst_succ_one (t : ℚ) (fuel : Nat) (x : F) (acc : List Tok) :
    goFirst t (fuel + 1) [x] acc = if isClose x t then some acc else none := rfl

theorem goFirst_succ_cons (t : ℚ) (fuel : Nat) (x y : F) (l : List F) (acc : List Tok) :
    goFirst t (fuel + 1) (x :: y :: l) acc
      = (pairs (x :: y :: l).length).findSome? fun p =>
          ops6.findSome? fun o =>
            goFirst t fuel (newNums (x :: y :: l) p.1 p.2 o)
              (acc ++ stepToks ((x :: y :: l).getD p.1 .nan) ((x :: y :: l).getD p.2 .nan) o) := rfl

theorem goAll_succ_one (t : ℚ) (fuel : Nat) (x : F) (acc : List Tok) :
    goAll t (fuel + 1) [x] acc = if isClose x t then [acc] else [] := rfl

theorem goAll_succ_cons (t : ℚ) (fuel : Nat) (x y : F) (l : List F) (acc : List Tok) :
    goAll t (fuel + 1) (x :: y :: l) acc
      = (pairs (x :: y :: l).length).flatMap fun p =>
          ops6.flatMap fun o =>
            goAll t fuel (newNums (x :: y :: l) p.1 p.2 o)
              (acc ++ stepToks ((x :: y :: l).getD p.1 .nan) ((x :: y :: l).getD p.2 .nan) o) := rfl

theorem list_any_congr {α : Type} {l : List α} {f g : α → Bool}
    (h : ∀ x ∈ l, f x = g x) : l.any f = l.any g := by
  induction l with
  | nil => rfl
  | cons a l ih =>
    simp only [List.any_cons, h a (List.mem_cons_self a l)]
    rw [ih fun x hx => h x (List.mem_cons_of_mem a hx)]

theorem list_findSome?_congr {α β : Type} {l : List α} {f g : α → Option β}
    (h : ∀ x ∈ l, f x = g x) : l.findSome? f = l.findSome? g := by
  induction l with
  | nil => rfl
  | cons a l ih =>
    rw [List.findSome?_cons, List.findSome?_cons, h a (List.mem_cons_self a l),
      ih fun x hx => h x (List.mem_cons_of_mem a hx)]

theorem pairs_mem {n i j : Nat} (h : (i, j) ∈ pairs n) : i < j ∧ j < n := by
  simp only [pairs, List.mem_flatMap, List.mem_map, List.mem_filter,
    List.mem_range, decide_eq_true_eq, Prod.mk.injEq] at h
  obtain ⟨a, _, b, ⟨hb, hab⟩, h1, h2⟩ := h
  subst h1
  subst h2
  exact ⟨hab, hb⟩

theorem newNums_length {l : List F} {i j : Nat} (o : Op6) (hij : i < j)
    (hj : j < l.length) : (newNums l i j o).length = l.length - 1 := by
  have h1 : (l.eraseIdx j).length = l.length - 1 := List.length_eraseIdx_of_lt hj
  have h2 : i < (l.eraseIdx j).length := by omega
  have h3 : ((l.eraseIdx j).eraseIdx i).length = (l.eraseIdx j).length - 1 :=
    List.length_eraseIdx_of_lt h2
  simp only [newNums, List.length_append, List.length_cons, List.length_nil, h3, h1]
  omega

/-! ### The residual vector, as a multiset -/

theorem getD_eq_of_lt {l : List F} {i : Nat} (d : F) (h : i < l.length) :
    l.getD i d = l[i] := by
  rw [List.getD_eq_getElem?_getD, List.getElem?_eq_getElem h, Option.getD_some]

theorem getD_mem {l : List F} {i : Nat} (d : F) (h : i < l.length) :
    l.getD i d ∈ l := by
  rw [getD_eq_of_lt d h]
  exact List.getElem_mem h

theorem coe_eraseIdx (d : F) :
    ∀ (l : List F) (i : Nat), i < l.length →
      ((l.eraseIdx i : List F) : Multiset F) = (l : Multiset F).erase (l.getD i d)
  | [], i, h => by simp at h
  | a :: l, 0, _ => by
    rw [List.eraseIdx_cons_zero, List.getD_cons_zero, ← Multiset.cons_coe,
      Multiset.erase_cons_head]
  | a :: l, i + 1, h => by
    have h' : i < l.length := by simpa using h
    rw [List.eraseIdx_cons_succ, List.getD_cons_succ, ← Multiset.cons_coe,
      ← Multiset.cons_coe]
    by_cases hv : a = l.getD i d
    · rw [← hv, Multiset.erase_cons_head, coe_eraseIdx d l i h', hv,
        Multiset.cons_erase (Multiset.mem_coe.mpr (getD_mem d h'))]
    · rw [Multiset.erase_cons_tail _ hv, coe_eraseIdx d l i h']

theorem getD_eraseIdx_of_lt {l : List F} {i j : Nat} (d : F) (hij : i < j)
    (hj : j < l.length) : (l.eraseIdx j).getD i d = l.getD i d := by
  have hi : i < (l.eraseIdx j).length := by
    rw [List.length_eraseIdx_of_lt hj]; omega
  rw [getD_eq_of_lt d hi, getD_eq_of_lt d (by omega),
    List.getElem_eraseIdx_of_lt l j i hi hij]

theorem getD_mem_eraseIdx_right {l : List F} {i j : Nat} (d : F) (hij : i < j)
    (hj : j < l.length) : l.getD i d ∈ l.eraseIdx j := by
  rw [← getD_eraseIdx_of_lt d hij hj]
  exact getD_mem d (by rw [List.length_eraseIdx_of_lt hj]; omega)

theorem getD_mem_eraseIdx_left {l : List F} {i j : Nat} (d : F) (hij : i < j)
    (hj : j < l.length) : l.getD j d ∈ l.eraseIdx i := by
  have h1 : (l.eraseIdx i)[j - 1]? = l[j - 1 + 1]? :=
    List.getElem?_eraseIdx_of_ge l i (j - 1) (by omega)
  have h2 : j - 1 + 1 = j := by omega
  rw [h2, List.getElem?_eq_getElem hj] at h1
  rw [getD_eq_of_lt d hj]
  exact List.getElem?_mem h1

theorem mem_erase_getD_left {l : List F} {i j : Nat} (hij : i < j)
    (hj : j < l.length) :
    l.getD j F.nan ∈ (l : Multiset F).erase (l.getD i F.nan) := by
  rw [← coe_eraseIdx F.nan l i (by omega)]
  exact Multiset.mem_coe.mpr (getD_mem_eraseIdx_left F.nan hij hj)

theorem mem_erase_getD_right {l : List F} {i j : Nat} (hij : i < j)
    (hj : j < l.length) :
    l.getD i F.nan ∈ (l : Multiset F).erase (l.getD j F.nan) := by
  rw [← coe_eraseIdx F.nan l j hj]
  exact Multiset.mem_coe.mpr (getD_mem_eraseIdx_right F.nan hij hj)

theorem coe_newNums {l : List F} {i j : Nat} (o : Op6) (hij : i < j)
    (hj : j < l.length) :
    ((newNums l i j o : List F) : Multiset F)
      = apply6 o (l.getD i F.nan) (l.getD j F.nan) ::ₘ
          (((l : Multiset F).erase (l.getD i F.nan)).erase (l.getD j F.nan)) := by
  have hje : i < (l.eraseIdx j).length := by
    rw [List.length_eraseIdx_of_lt hj]; omega
  rw [newNums, ← Multiset.coe_add, add_comm, Multiset.coe_singleton,
    Multiset.singleton_add, coe_eraseIdx F.nan (l.eraseIdx j) i hje,
    getD_eraseIdx_of_lt F.nan hij hj, coe_eraseIdx F.nan l j hj,
    Multiset.erase_comm]

/-! ### Replaying one recorded step -/

theorem replayToks_group (s : Multiset F) (a b r : F) (o : OpSym) (rest : List Tok)
    (ha : a ∈ s) (hb : b ∈ s.erase a) (hr : r = applySym o a b) :
    replayToks s (.ofF a :: .ofF b :: .ofF r :: .ofOp o :: rest)
      = replayToks (applySym o a b ::ₘ (s.erase a).erase b) rest := by
  rw [replayToks, if_pos ⟨ha, hb, hr⟩]

theorem replayToks_step {l : List F} {i j : Nat} (o : Op6) (ext : List Tok)
    (hij : i < j) (hj : j < l.length) :
    replayToks (l : Multiset F) (stepToks (l.getD i F.nan) (l.getD j F.nan) o ++ ext)
      = replayToks ((newNums l i j o : List F) : Multiset F) ext := by
  have ha : l.getD i F.nan ∈ (l : Multiset F) :=
    Multiset.mem_coe.mpr (getD_mem F.nan (by omega))
  have hb : l.getD j F.nan ∈ (l : Multiset F) :=
    Multiset.mem_coe.mpr (getD_mem F.nan hj)
  have hab : l.getD j F.nan ∈ (l : Multiset F).erase (l.getD i F.nan) :=
    mem_erase_getD_left hij hj
  have hba : l.getD i F.nan ∈ (l : Multiset F).erase (l.getD j F.nan) :=
    mem_erase_getD_right hij hj
  rw [coe_newNums o hij hj]
  cases o with
  | add =>
    rw [stepToks, List.cons_append, List.cons_append, List.cons_append,
      List.cons_append, List.nil_append,
      replayToks_group _ _ _ (Fadd _ _) .plus _ ha hab rfl]
    rfl
  | mul =>
    rw [stepToks, List.cons_append, List.cons_append, List.cons_append,
      List.cons_append, List.nil_append,
      replayToks_group _ _ _ (Fmul _ _) .times _ ha hab rfl]
    rfl
  | subF =>
    rw [stepToks, List.cons_append, List.cons_append, List.cons_append,
      List.cons_append, List.nil_append,
      replayToks_group _ _ _ (Fsub _ _) .minus _ ha hab rfl]
    rfl
  | divF =>
    rw [stepToks, List.cons_append, List.cons_append, List.cons_append,
      List.cons_append, List.nil_append,
      replayToks_group _ _ _ (Fdiv _ _) .divi _ ha hab rfl]
    rfl
  | subR =>
    rw [stepToks, List.cons_append, List.cons_append, List.cons_append,
      List.cons_append, List.nil_append,
      replayToks_group _ _ _ (Fsub _ _) .minus _ hb hba rfl, Multiset.erase_comm]
    rfl
  | divR =>
    rw [stepToks, List.cons_append, List.cons_append, List.cons_append,
      List.cons_append, List.nil_append,
      replayToks_group _ _ _ (Fdiv _ _) .divi _ hb hba rfl, Multiset.erase_comm]
    rfl

/-! ### The three traversals agree -/

theorem findSome?_isSome_eq_any {α β : Type} (l : List α) (f : α → Option β) :
    (l.findSome? f).isSome = l.any fun x => (f x).isSome := by
  induction l with
  | nil => rfl
  | cons a l ih =>
    rw [List.findSome?_cons, List.any_cons]
    cases h : f a
    · simp [ih]
    · simp

theorem goFirst_isSome_eq_goExists (t : ℚ) :
    ∀ (fuel : Nat) (nums : List F) (acc : List Tok),
      (goFirst t fuel nums acc).isSome = goExists t fuel nums
  | 0, _, _ => rfl
  | _ + 1, [], _ => rfl
  | _ + 1, [x], acc => by
    rw [goFirst_succ_one, goExists_succ_one]
    by_cases h : isClose x t <;> simp [h]
  | fuel + 1, x :: y :: l, acc => by
    rw [goFirst_succ_cons, goExists_succ_cons, findSome?_isSome_eq_any]
    refine list_any_congr fun p _ => ?_
    rw [findSome?_isSome_eq_any]
    refine list_any_congr fun o _ => ?_
    exact goFirst_isSome_eq_goExists t fuel _ _

theorem goFirst_eq_head?_goAll (t : ℚ) :
    ∀ (fuel : Nat) (nums : List F) (acc : List Tok),
      goFirst t fuel nums acc = (goAll t fuel nums acc).head?
  | 0, _, _ => rfl
  | _ + 1, [], _ => rfl
  | _ + 1, [x], acc => by
    rw [goFirst_succ_one, goAll_succ_one]
    by_cases h : isClose x t <;> simp [h]
  | fuel + 1, x :: y :: l, acc => by
    rw [goFirst_succ_cons, goAll_succ_cons, List.head?_flatMap]
    refine list_findSome?_congr fun p _ => ?_
    rw [List.head?_flatMap]
    refine list_findSome?_congr fun o _ => ?_
    exact goFirst_eq_head?_goAll t fuel _ _

/-! ### Fuel is irrelevant beyond the vector length -/

theorem goExists_fuel_mono (t : ℚ) :
    ∀ (n : Nat) (nums : List F) (fuel : Nat), nums.length = n → n ≤ fuel →
      goExists t fuel nums = goExists t n nums := by
  intro n
  induction n using Nat.strong_induction_on with
  | _ n ih =>
    intro nums fuel hlen hle
    subst hlen
    match nums with
    | [] => cases fuel <;> rfl
    | [x] =>
      match fuel with
      | f + 1 => rfl
    | x :: y :: l =>
      match fuel, hle with
      | f + 1, hle =>
        simp only [List.length_cons]
        rw [goExists_succ_cons, goExists_succ_cons]
        refine list_any_congr fun p hp => ?_
        refine list_any_congr fun o _ => ?_
        obtain ⟨i, j⟩ := p
        obtain ⟨hij, hj⟩ := pairs_mem hp
        have hlen' : (newNums (x :: y :: l) i j o).length = l.length + 1 := by
          rw [newNums_length o hij hj]
          simp
        rw [ih (l.length + 1) (by simp) _ f hlen'
          (by simp only [List.length_cons] at hle; omega)]

/-! ### Every returned trace replays to a value close to the target -/

theorem goFirst_replay (t : ℚ) :
    ∀ (fuel : Nat) (nums : List F) (acc tr : List Tok),
      fuel = nums.length → goFirst t fuel nums acc = some tr →
      ∃ ext, tr = acc ++ ext ∧
        ∃ v, replayToks (nums : Multiset F) ext = some {v} ∧ isClose v t = true := by
  intro fuel
  induction fuel with
  | zero => intro nums acc tr _ h; exact absurd h (by rw [goFirst]; simp)
  | succ fuel ih =>
    intro nums acc tr hlen h
    match nums with
    | [] => exact absurd h (by rw [show goFirst t (fuel + 1) [] acc = none from rfl]; simp)
    | [x] =>
      rw [goFirst_succ_one] at h
      by_cases hc : isClose x t
      · rw [if_pos hc, Option.some.injEq] at h
        exact ⟨[], by rw [List.append_nil]; exact h.symm, x,
          by rw [replayToks, Multiset.coe_singleton], hc⟩
      · rw [if_neg hc] at h
        exact absurd h (by simp)
    | x :: y :: l =>
      rw [goFirst_succ_cons] at h
      obtain ⟨p, hp, h2⟩ := List.exists_of_findSome?_eq_some h
      obtain ⟨o, _, h3⟩ := List.exists_of_findSome?_eq_some h2
      obtain ⟨i, j⟩ := p
      obtain ⟨hij, hj⟩ := pairs_mem hp
      have hlen' : fuel = (newNums (x :: y :: l) i j o).length := by
        rw [newNums_length o hij hj]
        simp only [List.length_cons] at hlen ⊢
        omega
      obtain ⟨ext, htr, v, hrep, hclose⟩ := ih _ _ _ hlen' h3
      refine ⟨stepToks ((x :: y :: l).getD i .nan) ((x :: y :: l).getD j .nan) o ++ ext,
        by rw [htr, List.append_assoc], v, ?_, hclose⟩
      rw [replayToks_step o ext hij hj]
      exact hrep

theorem goAll_replay (t : ℚ) :
    ∀ (fuel : Nat) (nums : List F) (acc tr : List Tok),
      fuel = nums.length → tr ∈ goAll t fuel nums acc →
      ∃ ext, tr = acc ++ ext ∧
        ∃ v, replayToks (nums : Multiset F) ext = some {v} ∧ isClose v t = true := by
  intro fuel
  induction fuel with
  | zero => intro nums acc tr _ h; exact absurd h (by rw [goAll]; simp)
  | succ fuel ih =>
    intro nums acc tr hlen h
    match nums with
    | [] => exact absurd h (by rw [show goAll t (fuel + 1) [] acc = [] from rfl]; simp)
    | [x] =>
      rw [goAll_succ_one] at h
      by_cases hc : isClose x t
      · rw [if_pos hc, List.mem_singleton] at h
        exact ⟨[], by rw [List.append_nil]; exact h, x,
          by rw [replayToks, Multiset.coe_singleton], hc⟩
      · rw [if_neg hc] at h
        exact absurd h (by simp)
    | x :: y :: l =>
      rw [goAll_succ_cons] at h
      obtain ⟨p, hp, h2⟩ := List.mem_flatMap.mp h
      obtain ⟨o, _, h3⟩ := List.mem_flatMap.mp h2
      obtain ⟨i, j⟩ := p
      obtain ⟨hij, hj⟩ := pairs_mem hp
      have hlen' : fuel = (newNums (x :: y :: l) i j o).length := by
        rw [newNums_length o hij hj]
        simp only [List.length_cons] at hlen ⊢
        omega
      obtain ⟨ext, htr, v, hrep, hclose⟩ := ih _ _ _ hlen' h3
      refine ⟨stepToks ((x :: y :: l).getD i .nan) ((x :: y :: l).getD j .nan) o ++ ext,
        by rw [htr, List.append_assoc], v, ?_, hclose⟩
      rw [replayToks_step o ext hij hj]
      exact hrep

/-! ### Every returned trace has four tokens per reduction step -/

theorem stepToks_length (a b : F) (o : Op6) : (stepToks a b o).length = 4 := by
  cases o <;> rfl

theorem goFirst_trace_length (t : ℚ) :
    ∀ (fuel : Nat) (nums : List F) (acc tr : List Tok),
      fuel = nums.length → goFirst t fuel nums acc = some tr →
      tr.length = acc.length + 4 * (nums.length - 1) := by
  intro fuel
  induction fuel with
  | zero => intro nums acc tr _ h; exact absurd h (by rw [goFirst]; simp)
  | succ fuel ih =>
    intro nums acc tr hlen h
    match nums with
    | [] => exact absurd h (by rw [show goFirst t (fuel + 1) [] acc = none from rfl]; simp)
    | [x] =>
      rw [goFirst_succ_one] at h
      by_cases hc : isClose x t
      · rw [if_pos hc, Option.some.injEq] at h
        rw [← h]
        simp
      · rw [if_neg hc] at h
        exact absurd h (by simp)
    | x :: y :: l =>
      rw [goFirst_succ_cons] at h
      obtain ⟨p, hp, h2⟩ := List.exists_of_findSome?_eq_some h
      obtain ⟨o, _, h3⟩ := List.exists_of_findSome?_eq_some h2
      obtain ⟨i, j⟩ := p
      obtain ⟨hij, hj⟩ := pairs_mem hp
      have hlen' : fuel = (newNums (x :: y :: l) i j o).length := by
        rw [newNums_length o hij hj]
        simp only [List.length_cons] at hlen ⊢
        omega
      have := ih _ _ _ hlen' h3
      rw [List.length_append, stepToks_length] at this
      rw [this, newNums_length o hij hj]
      simp only [List.length_cons]
      omega

theorem goAll_trace_length (t : ℚ) :
    ∀ (fuel : Nat) (nums : List F) (acc tr : List Tok),
      fuel = nums.length → tr ∈ goAll t fuel nums acc →
      tr.length = acc.length + 4 * (nums.length - 1) := by
  intro fuel
  induction fuel with
  | zero => intro nums acc tr _ h; exact absurd h (by rw [goAll]; simp)
  | succ fuel ih =>
    intro nums acc tr hlen h
    match nums with
    | [] => exact absurd h (by rw [show goAll t (fuel + 1) [] acc = [] from rfl]; simp)
    | [x] =>
      rw [goAll_succ_one] at h
      by_cases hc : isClose x t
      · rw [if_pos hc, List.mem_singleton] at h
        rw [h]
        simp
      · rw [if_neg hc] at h
        exact absurd h (by simp)
    | x :: y :: l =>
      rw [goAll_succ_cons] at h
      obtain ⟨p, hp, h2⟩ := List.mem_flatMap.mp h
      obtain ⟨o, _, h3⟩ := List.mem_flatMap.mp h2
      obtain ⟨i, j⟩ := p
      obtain ⟨hij, hj⟩ := pairs_mem hp
      have hlen' : fuel = (newNums (x :: y :: l) i j o).length := by
        rw [newNums_length o hij hj]
        simp only [List.length_cons] at hlen ⊢
        omega
      have := ih _ _ _ hlen' h3
      rw [List.length_append, stepToks_length] at this
      rw [this, newNums_length o hij hj]
      simp only [List.length_cons]
      omega

/-! ### Entry-point corollaries of the traversal lemmas -/

theorem solve_first_isSome (nums : List F) (acc : List Tok) (t : ℚ) :
    (solve_first nums acc t).isSome = solution_exists nums t :=
  goFirst_isSome_eq_goExists t nums.length nums acc

theorem solve_first_eq_head?_solve_all (nums : List F) (acc : List Tok) (t : ℚ) :
    solve_first nums acc t = (solve_all nums acc t).head? :=
  goFirst_eq_head?_goAll t nums.length nums acc

theorem qabs_eq_abs (x : ℚ) : qabs x = |x| := by
  rw [qabs]
  by_cases h : x < 0
  · rw [if_pos h, abs_of_neg h]
  · rw [if_neg h, abs_of_nonneg (not_lt.mp h)]

/-! ## The claims -/

/-- Claim C1: for every input sequence of length at least two and every
target, every trace returned by the first-solution search (`solve_first`) or
collected by the all-solutions search (`solve_all`), replayed operation by
operation against the original sequence of values, reduces it to a single
value whose absolute difference from the target is below `1e-8`. -/
theorem c1_returned_traces_replay_to_target (nums : List F) (t : ℚ) (tr : List Tok)
    (_hlen : 2 ≤ nums.length)
    (h : solve_first nums [] t = some tr ∨ tr ∈ solve_all nums [] t) :
    ∃ v, replayToks (nums : Multiset F) tr = some {v} ∧ isClose v t = true := by
  cases h with
  | inl h =>
    obtain ⟨ext, htr, hv⟩ := goFirst_replay t nums.length nums [] tr rfl h
    rw [List.nil_append] at htr
    rw [htr]
    exact hv
  | inr h =>
    obtain ⟨ext, htr, hv⟩ := goAll_replay t nums.length nums [] tr rfl h
    rw [List.nil_append] at htr
    rw [htr]
    exact hv

/-- Witness for claim C1 at the input `[2, 3]` with target `6`: the first
solution is `2 * 3` and its trace replays to `6`. -/
theorem c1_returned_traces_replay_to_target_witness :
    ∃ v, replayToks (([F.fin 2, F.fin 3] : List F) : Multiset F)
        [Tok.ofF (F.fin 2), Tok.ofF (F.fin 3), Tok.ofF (F.fin 6), Tok.ofOp OpSym.times]
          = some {v} ∧ isClose v 6 = true :=
  c1_returned_traces_replay_to_target [F.fin 2, F.fin 3] 6 _ (by decide)
    (Or.inl (by decide))

/-- Claim C2: the existence check returns `true` exactly when the
first-solution search succeeds and produces a trace; at the class level,
`is_valid_input` agrees with the boolean result of `find_first_solution`. -/
theorem c2_exists_iff_first_succeeds :
    (∀ (nums : List F) (t : ℚ),
      solution_exists nums t = true ↔ ∃ tr, solve_first nums [] t = some tr)
    ∧ ∀ s : Solution, is_valid_input s = (find_first_solution s).fst := by
  constructor
  · intro nums t
    rw [← solve_first_isSome nums [] t]
    exact Option.isSome_iff_exists
  · intro s
    rw [is_valid_input, ← solve_first_isSome (valuesOf s) [] s.target]
    cases h : solve_first (valuesOf s) [] s.target with
    | some tr => simp [find_first_solution, h]
    | none => simp [find_first_solution, h]

/-- Claim C3: the trace returned by the first-solution search is the first
trace of the all-solutions search in discovery order (the two traversals
enumerate pair positions and operations identically), and the enumeration
order is the lexicographic position order with the fixed operation order
add, multiply, subtract forward, divide forward, subtract reverse, divide
reverse. -/
theorem c3_first_is_head_of_all :
    (∀ (nums : List F) (t : ℚ), solve_first nums [] t = (solve_all nums [] t).head?)
    ∧ pairs 4 = [(0, 1), (0, 2), (0, 3), (1, 2), (1, 3), (2, 3)]
    ∧ ops6 = [.add, .mul, .subF, .divF, .subR, .divR] :=
  ⟨fun nums t => solve_first_eq_head?_solve_all nums [] t, by decide, rfl⟩

/-- Claim C4 (code bug): `find_all_solutions` never clears the `solutions`
member (the statement `solutions;` in its body is a no-op), so a second
invocation on the same object appends the same traces again: after one call
on `Solution([2,3], 6)` the collection holds the single trace `2 * 3 = 6`,
after a second call it holds that trace twice.  The spec instead promises
identical outputs for repeated calls with no state persisting between
them. -/
theorem c4_find_all_accumulates_across_calls :
    get_all_solutions (find_all_solutions (mkSolutionT [2, 3] 6))
        = [[Tok.ofF (F.fin 2), Tok.ofF (F.fin 3), Tok.ofF (F.fin 6), Tok.ofOp OpSym.times]]
    ∧ get_all_solutions (find_all_solutions (find_all_solutions (mkSolutionT [2, 3] 6)))
        = [[Tok.ofF (F.fin 2), Tok.ofF (F.fin 3), Tok.ofF (F.fin 6), Tok.ofOp OpSym.times],
           [Tok.ofF (F.fin 2), Tok.ofF (F.fin 3), Tok.ofF (F.fin 6), Tok.ofOp OpSym.times]] :=
  ⟨by decide, by decide⟩

/-- Claim C5: a zero divisor never produces a reported success and never
crashes: division of a finite value by zero yields a non-finite value, only
finite values can pass the closeness test against a target, and on the
sequence `[0, 4, 6, 1]` with the unreachable target `1000` all three search
modes terminate with the no-solution outcome even though branches dividing
by zero are explored. -/
theorem c5_division_by_zero_never_reports_success :
    (∀ x q : ℚ, Fdiv (F.fin x) (F.fin 0) ≠ F.fin q)
    ∧ (∀ (v : F) (t : ℚ), isClose v t = true → ∃ q, v = F.fin q)
    ∧ solution_exists [F.fin 0, F.fin 4, F.fin 6, F.fin 1] 1000 = false
    ∧ solve_first [F.fin 0, F.fin 4, F.fin 6, F.fin 1] [] 1000 = none
    ∧ solve_all [F.fin 0, F.fin 4, F.fin 6, F.fin 1] [] 1000 = [] := by
  refine ⟨?_, ?_, by decide, by decide, by decide⟩
  · intro x q
    rcases lt_trichotomy x 0 with hx | hx | hx
    · have : Fdiv (F.fin x) (F.fin 0) = F.neginf := by
        rw [Fdiv, if_pos rfl, if_neg (ne_of_lt hx), if_neg (not_lt.mpr (le_of_lt hx))]
      rw [this]
      exact fun h => F.noConfusion h
    · have : Fdiv (F.fin x) (F.fin 0) = F.nan := by
        rw [Fdiv, if_pos rfl, if_pos hx]
      rw [this]
      exact fun h => F.noConfusion h
    · have : Fdiv (F.fin x) (F.fin 0) = F.inf := by
        rw [Fdiv, if_pos rfl, if_neg (ne_of_gt hx), if_pos hx]
      rw [this]
      exact fun h => F.noConfusion h
  · intro v t h
    cases v with
    | fin q => exact ⟨q, rfl⟩
    | inf => exact Bool.noConfusion h
    | neginf => exact Bool.noConfusion h
    | nan => exact Bool.noConfusion h

/-- Witness for claim C5: `4 / 0` is not the finite value `7`, and the
closeness test passed by the finite value `0` against target `0` does
exhibit a finite value. -/
theorem c5_division_by_zero_never_reports_success_witness :
    Fdiv (F.fin 4) (F.fin 0) ≠ F.fin 7 ∧ ∃ q, F.fin (0 : ℚ) = F.fin q :=
  ⟨c5_division_by_zero_never_reports_success.1 4 7,
   c5_division_by_zero_never_reports_success.2.1 (F.fin 0) 0 (by decide)⟩

/-- Claim C6 counterexample: on the empty input sequence none of the search
operations raises any error — each one silently returns its normal
no-solution result (`false`, absent trace, empty collection), including at
the class level, contradicting the claimed fail-fast behaviour. -/
theorem c6_empty_input_returns_silently :
    solution_exists [] 24 = false
    ∧ solve_first [] [] 24 = none
    ∧ solve_all [] [] 24 = []
    ∧ is_valid_input (mkSolution []) = false
    ∧ (find_first_solution (mkSolution [])).fst = false :=
  ⟨rfl, rfl, rfl, rfl, rfl⟩

/-- Claim C6 as amended: for every target, the empty input sequence makes
every search operation return its normal no-solution outcome without error
and without undefined behaviour (the C++ loop guard `i + 1 < nums.size()`
is false for `i = 0` under unsigned comparison, so the loop body never
runs). -/
theorem c6_amended_empty_input_no_error (t : ℚ) :
    solution_exists [] t = false
    ∧ solve_first [] [] t = none
    ∧ solve_all [] [] t = [] :=
  ⟨rfl, rfl, rfl⟩

/-- Claim C7: on a sequence of length exactly one, the existence check
returns `true` precisely when the absolute difference between the single
value and the target is strictly below `1e-8`. -/
theorem c7_singleton_exists_iff_close (x t : ℚ) :
    solution_exists [F.fin x] t = true ↔ |x - t| < eps := by
  have h : solution_exists [F.fin x] t = decide (qabs (x - t) < eps) := rfl
  rw [h, decide_eq_true_eq, qabs_eq_abs]

/-- Claim C8: every trace returned by the first-solution search or collected
by the all-solutions search on a sequence of length `n ≥ 1` consists of
exactly `4 * (n - 1)` tokens (per reduction step: first operand, second
operand, result, operator symbol). -/
theorem c8_trace_token_count (nums : List F) (t : ℚ) (tr : List Tok)
    (_hlen : 1 ≤ nums.length)
    (h : solve_first nums [] t = some tr ∨ tr ∈ solve_all nums [] t) :
    tr.length = 4 * (nums.length - 1) := by
  cases h with
  | inl h =>
    have := goFirst_trace_length t nums.length nums [] tr rfl h
    simpa using this
  | inr h =>
    have := goAll_trace_length t nums.length nums [] tr rfl h
    simpa using this

/-- Witness for claim C8 at the input `[2, 3]` with target `6`: the returned
trace has `4 = 4 * (2 - 1)` tokens. -/
theorem c8_trace_token_count_witness :
    ([Tok.ofF (F.fin 2), Tok.ofF (F.fin 3), Tok.ofF (F.fin 6), Tok.ofOp OpSym.times] :
        List Tok).length
      = 4 * (([F.fin 2, F.fin 3] : List F).length - 1) :=
  c8_trace_token_count [F.fin 2, F.fin 3] 6 _ (by decide) (Or.inl (by decide))

/-- Claim C9: every vector handed to a recursive call of the search is
exactly one element shorter than its caller's (the residual without
positions `i` and `j` plus the appended result), and consequently fuel equal
to the sequence length is always sufficient: the search evaluated with any
larger recursion budget gives the same result, so the recursion depth is
bounded by the length. -/
theorem c9_recursive_call_shrinks_sequence_by_one :
    (∀ (nums : List F) (i j : Nat) (o : Op6), (i, j) ∈ pairs nums.length →
      (newNums nums i j o).length + 1 = nums.length)
    ∧ ∀ (nums : List F) (t : ℚ) (fuel : Nat), nums.length ≤ fuel →
        goExists t fuel nums = solution_exists nums t := by
  constructor
  · intro nums i j o hp
    obtain ⟨hij, hj⟩ := pairs_mem hp
    rw [newNums_length o hij hj]
    omega
  · intro nums t fuel hle
    exact goExists_fuel_mono t nums.length nums fuel rfl hle

/-- Witness for claim C9 at the input `[1, 2]`: the recursive call for the
pair `(0, 1)` receives a one-element vector, and a fuel of `5` gives the
same answer as the entry point for target `3`. -/
theorem c9_recursive_call_shrinks_sequence_by_one_witness :
    (newNums [F.fin 1, F.fin 2] 0 1 Op6.add).length + 1
        = ([F.fin 1, F.fin 2] : List F).length
    ∧ goExists 3 5 [F.fin 1, F.fin 2] = solution_exists [F.fin 1, F.fin 2] 3 :=
  ⟨c9_recursive_call_shrinks_sequence_by_one.1 [F.fin 1, F.fin 2] 0 1 Op6.add (by decide),
   c9_recursive_call_shrinks_sequence_by_one.2 [F.fin 1, F.fin 2] 3 5 (by decide)⟩

/-- Claim C10: when `find_first_solution` fails (returns `false`), the stored
`first_solution` member is left untouched rather than cleared, so
`get_first_solution` still returns whatever an earlier successful call
recorded. -/
theorem c10_failed_first_search_preserves_member (s : Solution)
    (h : (find_first_solution s).fst = false) :
    get_first_solution (find_first_solution s).snd = get_first_solution s := by
  cases hs : solve_first (valuesOf s) [] s.target with
  | some tr =>
    exfalso
    simp only [find_first_solution, hs] at h
    exact Bool.noConfusion h
  | none =>
    simp only [find_first_solution, hs]

/-- Witness for claim C10: on a `Solution` over `[1, 2]` with target `100`
(no solution) whose member already holds a stale trace `[7]`, the failing
search leaves `get_first_solution` returning the stale trace. -/
theorem c10_failed_first_search_preserves_member_witness :
    get_first_solution
        (find_first_solution
          { mkSolutionT [1, 2] 100 with first_solution := [Tok.ofF (F.fin 7)] }).snd
      = get_first_solution
          { mkSolutionT [1, 2] 100 with first_solution := [Tok.ofF (F.fin 7)] } :=
  c10_failed_first_search_preserves_member _ (by decide)

end Solve24
